import Mathlib

/-!
Shallow embedding of `hwy/perf_counters.{h,cc}` (Linux implementation of
`PMU::Impl` plus the counter catalog `FindCounterConfig`).

Modelling conventions:
* The OS environment is a parameter: `supported : Bool` models the
  capability probe `PerfCountersSupported()`, `openOk : Nat → Bool` models
  per-counter success of `perf_event_open` (indexed by canonical counter
  position), and `read : Nat → ReadResult` models the eventual outcome of
  the (retried) `read` on a file descriptor.
* A file descriptor is identified with the canonical index of the counter
  it was opened for; this is only a renaming of the opaque OS handle.
* `HWY_ABORT` / failed `HWY_ASSERT` (process termination) is modelled as
  `Option.none`; all slot arithmetic (`double`/`float` in the source) is
  carried out in `ℚ`.
-/

namespace PerfCounters

/-- Linux `perf_event.h` constant `PERF_TYPE_HARDWARE`. -/
def PERF_TYPE_HARDWARE : Nat := 0
/-- Linux `perf_event.h` constant `PERF_TYPE_SOFTWARE`. -/
def PERF_TYPE_SOFTWARE : Nat := 1
/-- Linux `perf_event.h` constant `PERF_TYPE_HW_CACHE`. -/
def PERF_TYPE_HW_CACHE : Nat := 3

def PERF_COUNT_HW_INSTRUCTIONS : Nat := 1
def PERF_COUNT_HW_BRANCH_INSTRUCTIONS : Nat := 4
def PERF_COUNT_HW_BRANCH_MISSES : Nat := 5
def PERF_COUNT_HW_STALLED_CYCLES_FRONTEND : Nat := 7
def PERF_COUNT_HW_STALLED_CYCLES_BACKEND : Nat := 8
def PERF_COUNT_HW_REF_CPU_CYCLES : Nat := 9
def PERF_COUNT_HW_CACHE_LL : Nat := 2
def PERF_COUNT_HW_CACHE_OP_READ : Nat := 0
def PERF_COUNT_HW_CACHE_OP_WRITE : Nat := 1
def PERF_COUNT_HW_CACHE_RESULT_ACCESS : Nat := 0
def PERF_COUNT_HW_CACHE_RESULT_MISS : Nat := 1
def PERF_COUNT_SW_PAGE_FAULTS : Nat := 2

/-- `struct CounterConfig` from `perf_counters.cc`: the arguments for
`perf_event_open`. -/
structure CounterConfig where
  config : Nat
  type : Nat
deriving Repr, DecidableEq

/-- `FindCounterConfig` from `perf_counters.cc`.  The source calls
`HWY_ABORT` when no name matches; abortion is modelled as `none`. -/
def FindCounterConfig (name : String) : Option CounterConfig :=
  let kHW := PERF_TYPE_HARDWARE
  if name = "ref_cycle" then some ⟨PERF_COUNT_HW_REF_CPU_CYCLES, kHW⟩
  else if name = "instruction" then some ⟨PERF_COUNT_HW_INSTRUCTIONS, kHW⟩
  else if name = "branch" then some ⟨PERF_COUNT_HW_BRANCH_INSTRUCTIONS, kHW⟩
  else if name = "branch_mispred" then some ⟨PERF_COUNT_HW_BRANCH_MISSES, kHW⟩
  else if name = "frontend_stall" then
    some ⟨PERF_COUNT_HW_STALLED_CYCLES_FRONTEND, kHW⟩
  else if name = "backend_stall" then
    some ⟨PERF_COUNT_HW_STALLED_CYCLES_BACKEND, kHW⟩
  else
    let kL3 := PERF_COUNT_HW_CACHE_LL
    let kLoad := PERF_COUNT_HW_CACHE_OP_READ <<< 8
    let kStore := PERF_COUNT_HW_CACHE_OP_WRITE <<< 8
    let kAcc := PERF_COUNT_HW_CACHE_RESULT_ACCESS <<< 16
    let kMiss := PERF_COUNT_HW_CACHE_RESULT_MISS <<< 16
    if name = "l3_load" then some ⟨kL3 ||| kLoad ||| kAcc, PERF_TYPE_HW_CACHE⟩
    else if name = "l3_store" then
      some ⟨kL3 ||| kStore ||| kAcc, PERF_TYPE_HW_CACHE⟩
    else if name = "l3_load_miss" then
      some ⟨kL3 ||| kLoad ||| kMiss, PERF_TYPE_HW_CACHE⟩
    else if name = "l3_store_miss" then
      some ⟨kL3 ||| kStore ||| kMiss, PERF_TYPE_HW_CACHE⟩
    else if name = "page_fault" then
      some ⟨PERF_COUNT_SW_PAGE_FAULTS, PERF_TYPE_SOFTWARE⟩
    else none

/-- The canonical counter names, in the fixed order of
`PerfCounters::ForEach` in `perf_counters.h`. -/
def counterNames : List String :=
  ["ref_cycle", "instruction", "branch", "branch_mispred", "frontend_stall",
   "backend_stall", "l3_load", "l3_store", "l3_load_miss", "l3_store_miss",
   "page_fault"]

/-- `PerfCounters::Num()`. -/
def Num : Nat := 11

/-- The private state of `PMU::Impl`: the validity bitset `valid_` (one
`Bool` per canonical counter, in canonical order) and the vector `fds_`
of acquired descriptors (each identified with the canonical index of the
counter it was opened for). -/
structure ImplState where
  valid : List Bool
  fds : List Nat
deriving Repr, DecidableEq

/-- The constructor loop body of `PMU::Impl::Impl` (the `ForEach` visitor):
for each canonical name resolve the config (`HWY_ABORT` on failure),
attempt the open, on success set the validity bit and append the fd, and
at index 0 `HWY_ASSERT` that the config class is `PERF_TYPE_HARDWARE`. -/
def initLoop (openOk : Nat → Bool) : Nat → List String → ImplState → Option ImplState
  | _, [], s => some s
  | idx, name :: rest, s =>
    match FindCounterConfig name with
    | none => none
    | some config =>
      let s' : ImplState :=
        if openOk idx then ⟨s.valid.set idx true, s.fds ++ [idx]⟩ else s
      if idx = 0 ∧ ¬config.type = PERF_TYPE_HARDWARE then none
      else initLoop openOk (idx + 1) rest s'

/-- `PMU::Impl::Impl`: if the capability probe fails, stay inert;
otherwise run the open loop over all canonical counters and finally
`HWY_ASSERT(fds_.size() == valid_.Count())`. -/
def implInit (supported : Bool) (openOk : Nat → Bool) : Option ImplState :=
  if supported then
    match initLoop openOk 0 counterNames ⟨List.replicate Num false, []⟩ with
    | none => none
    | some s => if s.fds.length = s.valid.count true then some s else none
  else
    some ⟨List.replicate Num false, []⟩

/-- `PMU::Impl::Start`, with `enableOk` modelling success of
`ioctl(fds_[0], PERF_EVENT_IOC_ENABLE)`.  Returns the boolean result
together with the list of descriptors that received an enable ioctl;
`none` models the fatal `HWY_ASSERT` on enable failure. -/
def start (s : ImplState) (enableOk : Bool) : Option (Bool × List Nat) :=
  if s.fds.isEmpty then some (false, [])
  else if enableOk then some (true, [s.fds.headI])
  else none

/-- `struct Buf` from `PMU::Impl::Stop`: the record returned by `read`
with `PERF_FORMAT_TOTAL_TIME_ENABLED | PERF_FORMAT_TOTAL_TIME_RUNNING`. -/
structure Buf where
  value : Nat
  time_enabled : Nat
  time_running : Nat
deriving Repr, DecidableEq

/-- Eventual outcome of the (EAGAIN-retried) `read` on a descriptor:
either a hard failure (short read with `errno ≠ EAGAIN`) or a `Buf`. -/
inductive ReadResult where
  | fail : ReadResult
  | ok : Buf → ReadResult
deriving Repr, DecidableEq

/-- The coverage fraction `time_running / time_enabled` computed in
`PMU::Impl::Stop`, in exact rational arithmetic. -/
def fracQ (buf : Buf) : ℚ :=
  (buf.time_running : ℚ) / (buf.time_enabled : ℚ)

/-- The per-counter loop of `PMU::Impl::Stop` (the `ForEach` visitor):
walks the validity bits in canonical order with a second cursor into
`fds_`, zeroes each slot, and for valid counters reads the descriptor;
on a successful read it asserts `time_running ≤ time_enabled`, and when
`time_running ≠ 0` computes the fraction, asserts it lies in `(0, 1]`,
folds it into the running minimum and extrapolates the slot value.
Returns the slot values, the final minimum and (as a ghost trace) the
list of `(counter index, descriptor)` pairs actually read;
`none` models a fatal `HWY_ASSERT` (or out-of-range `fds_` access). -/
def stopLoop (read : Nat → ReadResult) :
    Nat → List Bool → List Nat → ℚ → Option (List ℚ × ℚ × List (Nat × Nat))
  | _, [], _, minf => some ([], minf, [])
  | idx, v :: vs, fds, minf =>
    if v then
      match fds with
      | [] => none
      | fd :: fds' =>
        match read fd with
        | ReadResult.fail =>
          match stopLoop read (idx + 1) vs fds' minf with
          | none => none
          | some (slots, m, tr) => some (0 :: slots, m, (idx, fd) :: tr)
        | ReadResult.ok buf =>
          if ¬buf.time_running ≤ buf.time_enabled then none
          else if buf.time_running ≠ 0 then
            if ¬(0 < fracQ buf ∧ fracQ buf ≤ 1) then none
            else
              match stopLoop read (idx + 1) vs fds' (min minf (fracQ buf)) with
              | none => none
              | some (slots, m, tr) =>
                some (((buf.value : ℚ) / fracQ buf) :: slots, m, (idx, fd) :: tr)
          else
            match stopLoop read (idx + 1) vs fds' minf with
            | none => none
            | some (slots, m, tr) => some (0 :: slots, m, (idx, fd) :: tr)
    else
      match stopLoop read (idx + 1) vs fds minf with
      | none => none
      | some (slots, m, tr) => some (0 :: slots, m, tr)

/-- `PMU::Impl::Stop`: on an inert instance return `0.0` immediately,
leaving the callers `PerfCounters` record (`prior`) untouched; otherwise run
the loop (starting from `min_fraction = 1.0`) and return the populated
slots and the minimum coverage. -/
def stop (s : ImplState) (read : Nat → ReadResult) (prior : List ℚ) :
    Option (List ℚ × ℚ) :=
  if s.fds.isEmpty then some (prior, 0)
  else
    match stopLoop read 0 s.valid s.fds 1 with
    | none => none
    | some (slots, m, _) => some (slots, m)

/-- Indices of the set bits of a validity list, in order, starting at a
given canonical index: the canonical positions `Stop` pairs with
successive descriptors. -/
def validIndicesAux : Nat → List Bool → List Nat
  | _, [] => []
  | i, b :: bs => (if b then [i] else []) ++ validIndicesAux (i + 1) bs

/-- Indices of the set bits of a validity list, in canonical order. -/
def validIndices (v : List Bool) : List Nat :=
  validIndicesAux 0 v

/-- Specification of the final content of one output slot of `Stop`:
zero unless the counter is valid, its read succeeds and its running time
is nonzero, in which case the raw value is divided by the coverage. -/
def slotSpec (read : Nat → ReadResult) (i : Nat) (v : Bool) : ℚ :=
  if v then
    match read i with
    | ReadResult.fail => 0
    | ReadResult.ok buf =>
      if buf.time_running ≠ 0 then (buf.value : ℚ) / fracQ buf else 0
  else 0

/-- The coverage fractions of the counters that contribute to the
minimum returned by `Stop`: valid counters whose read succeeds with
nonzero running time, in canonical order. -/
def contribs (read : Nat → ReadResult) : Nat → List Bool → List ℚ
  | _, [] => []
  | idx, v :: vs =>
    (if v then
      match read idx with
      | ReadResult.fail => []
      | ReadResult.ok buf => if buf.time_running ≠ 0 then [fracQ buf] else []
     else []) ++ contribs read (idx + 1) vs

end PerfCounters
namespace PerfCounters

lemma set_append_cons (l t : List Bool) (x b : Bool) :
    (l ++ x :: t).set l.length b = l ++ b :: t := by
  induction l with
  | nil => rfl
  | cons a l ih =>
    show a :: (l ++ x :: t).set l.length b = a :: (l ++ b :: t)
    rw [ih]

lemma count_true_map (p : Nat → Bool) (l : List Nat) :
    (l.map p).count true = (l.filter p).length := by
  induction l with
  | nil => rfl
  | cons a l ih =>
    by_cases h : p a
    · simp [List.count_cons, List.filter_cons, h, ih]
    · simp [List.count_cons, List.filter_cons, h, ih]

lemma initLoop_cons (openOk : Nat → Bool) (idx : Nat) (name : String)
    (rest : List String) (s : ImplState) (c : CounterConfig)
    (hc : FindCounterConfig name = some c)
    (ha : ¬(idx = 0 ∧ ¬c.type = PERF_TYPE_HARDWARE)) :
    initLoop openOk idx (name :: rest) s =
      initLoop openOk (idx + 1) rest
        (if openOk idx then ⟨s.valid.set idx true, s.fds ++ [idx]⟩ else s) := by
  simp only [initLoop, hc]
  rw [if_neg ha]

lemma initLoop_go (openOk : Nat → Bool) :
    ∀ (names : List String) (idx : Nat) (vpre : List Bool) (fds : List Nat),
      0 < idx → vpre.length = idx →
      (∀ n ∈ names, (FindCounterConfig n).isSome = true) →
      initLoop openOk idx names ⟨vpre ++ List.replicate names.length false, fds⟩ =
        some ⟨vpre ++ (List.range' idx names.length).map openOk,
              fds ++ (List.range' idx names.length).filter openOk⟩ := by
  intro names
  induction names with
  | nil =>
    intro idx vpre fds _ _ _
    simp [initLoop, List.range']
  | cons name rest ih =>
    intro idx vpre fds hidx hlen hall
    obtain ⟨c, hc⟩ :=
      Option.isSome_iff_exists.mp (hall name (List.mem_cons_self _ _))
    rw [initLoop_cons openOk idx name rest _ c hc
        (fun h => absurd h.1 (Nat.pos_iff_ne_zero.mp hidx))]
    have hrep : List.replicate (name :: rest).length false
        = false :: List.replicate rest.length false := rfl
    by_cases ho : openOk idx
    · rw [if_pos ho]
      have hset : ((⟨vpre ++ List.replicate (name :: rest).length false, fds⟩ :
            ImplState).valid.set idx true)
          = (vpre ++ [true]) ++ List.replicate rest.length false := by
        show ((vpre ++ List.replicate (name :: rest).length false).set idx true)
          = (vpre ++ [true]) ++ List.replicate rest.length false
        rw [hrep, ← hlen, set_append_cons]
        simp
      rw [show ((⟨vpre ++ List.replicate (name :: rest).length false, fds⟩ :
            ImplState).fds ++ [idx]) = fds ++ [idx] from rfl, hset]
      rw [ih (idx + 1) (vpre ++ [true]) (fds ++ [idx]) (Nat.succ_pos idx)
          (by simp [hlen]) (fun n hn => hall n (List.mem_cons_of_mem _ hn))]
      rw [show (name :: rest).length = rest.length + 1 from rfl,
          List.range'_succ]
      rw [List.map_cons, List.filter_cons, ho]
      simp
    · rw [if_neg ho]
      have hstate : (⟨vpre ++ List.replicate (name :: rest).length false, fds⟩ :
            ImplState)
          = ⟨(vpre ++ [false]) ++ List.replicate rest.length false, fds⟩ := by
        rw [hrep]
        simp
      rw [hstate,
        ih (idx + 1) (vpre ++ [false]) fds (Nat.succ_pos idx)
          (by simp [hlen]) (fun n hn => hall n (List.mem_cons_of_mem _ hn))]
      rw [show (name :: rest).length = rest.length + 1 from rfl,
          List.range'_succ]
      rw [List.map_cons, List.filter_cons]
      have ho' : openOk idx = false := Bool.not_eq_true _ |>.mp ho
      rw [ho']
      simp

lemma implInit_false (openOk : Nat → Bool) :
    implInit false openOk = some ⟨List.replicate Num false, []⟩ := rfl

theorem implInit_true (openOk : Nat → Bool) :
    implInit true openOk =
      some ⟨(List.range Num).map openOk, (List.range Num).filter openOk⟩ := by
  have hrc : FindCounterConfig "ref_cycle" =
      some ⟨PERF_COUNT_HW_REF_CPU_CYCLES, PERF_TYPE_HARDWARE⟩ := rfl
  have hcons : counterNames = "ref_cycle" :: counterNames.tail := rfl
  have htail : ∀ n ∈ counterNames.tail, (FindCounterConfig n).isSome = true := by
    decide
  have hstep := initLoop_cons openOk 0 "ref_cycle" counterNames.tail
      ⟨List.replicate Num false, []⟩ _ hrc (by simp [PERF_TYPE_HARDWARE])
  rw [← hcons] at hstep
  have hrange : List.range Num = 0 :: List.range' 1 10 := by
    rw [List.range_eq_range', show (Num = 10 + 1) from rfl, List.range'_succ]
  have hgoal : implInit true openOk =
      match initLoop openOk 0 counterNames ⟨List.replicate Num false, []⟩ with
      | none => none
      | some s =>
        if s.fds.length = s.valid.count true then some s else none := rfl
  rw [hgoal, hstep]
  by_cases h0 : openOk 0
  · rw [if_pos h0]
    have hst : (⟨(⟨List.replicate Num false, []⟩ : ImplState).valid.set 0 true,
          (⟨List.replicate Num false, []⟩ : ImplState).fds ++ [0]⟩ : ImplState)
        = ⟨[true] ++ List.replicate counterNames.tail.length false, [0]⟩ := rfl
    rw [hst, initLoop_go openOk counterNames.tail 1 [true] [0] Nat.one_pos rfl htail]
    have hV : [true] ++ (List.range' 1 counterNames.tail.length).map openOk
        = (List.range Num).map openOk := by
      rw [hrange, List.map_cons, h0]
      rfl
    have hF : ([0] : List Nat) ++ (List.range' 1 counterNames.tail.length).filter openOk
        = (List.range Num).filter openOk := by
      rw [hrange, List.filter_cons, h0]
      rfl
    rw [hV, hF]
    have hc2 : (List.filter openOk (List.range Num)).length
        = List.count true (List.map openOk (List.range Num)) :=
      (count_true_map openOk (List.range Num)).symm
    simp [hc2]
  · rw [if_neg h0]
    have hst : (⟨List.replicate Num false, []⟩ : ImplState)
        = ⟨[false] ++ List.replicate counterNames.tail.length false, []⟩ := rfl
    rw [hst, initLoop_go openOk counterNames.tail 1 [false] [] Nat.one_pos rfl htail]
    have h0' : openOk 0 = false := Bool.not_eq_true _ |>.mp h0
    have hV : [false] ++ (List.range' 1 counterNames.tail.length).map openOk
        = (List.range Num).map openOk := by
      rw [hrange, List.map_cons, h0']
      rfl
    have hF : (([] : List Nat)) ++ (List.range' 1 counterNames.tail.length).filter openOk
        = (List.range Num).filter openOk := by
      rw [hrange, List.filter_cons, h0']
      rfl
    rw [hV, hF]
    have hc2 : (List.filter openOk (List.range Num)).length
        = List.count true (List.map openOk (List.range Num)) :=
      (count_true_map openOk (List.range Num)).symm
    simp [hc2]

end PerfCounters
namespace PerfCounters

lemma validIndicesAux_map (openOk : Nat → Bool) :
    ∀ (n i : Nat),
      validIndicesAux i ((List.range' i n).map openOk)
        = (List.range' i n).filter openOk := by
  intro n
  induction n with
  | zero => intro i; rfl
  | succ n ih =>
    intro i
    rw [List.range'_succ, List.map_cons, List.filter_cons]
    by_cases h : openOk i
    · simp [validIndicesAux, h, ih]
    · simp [validIndicesAux, h, ih]

lemma fracQ_pos_le_one (buf : Buf) (hle : buf.time_running ≤ buf.time_enabled)
    (hnz : buf.time_running ≠ 0) : 0 < fracQ buf ∧ fracQ buf ≤ 1 := by
  have h1 : 0 < buf.time_running := Nat.pos_of_ne_zero hnz
  have h2 : 0 < buf.time_enabled := lt_of_lt_of_le h1 hle
  have h1q : (0 : ℚ) < buf.time_running := by exact_mod_cast h1
  have h2q : (0 : ℚ) < buf.time_enabled := by exact_mod_cast h2
  constructor
  · exact div_pos h1q h2q
  · rw [fracQ, div_le_one h2q]
    exact_mod_cast hle

lemma slotSpec_false (read : Nat → ReadResult) (i : Nat) :
    slotSpec read i false = 0 := rfl

lemma slotSpec_fail (read : Nat → ReadResult) (i : Nat)
    (h : read i = ReadResult.fail) : slotSpec read i true = 0 := by
  simp [slotSpec, h]

lemma slotSpec_ok_zero (read : Nat → ReadResult) (i : Nat) (buf : Buf)
    (h : read i = ReadResult.ok buf) (hz : buf.time_running = 0) :
    slotSpec read i true = 0 := by
  simp [slotSpec, h, hz]

lemma slotSpec_ok (read : Nat → ReadResult) (i : Nat) (buf : Buf)
    (h : read i = ReadResult.ok buf) (hz : buf.time_running ≠ 0) :
    slotSpec read i true = (buf.value : ℚ) / fracQ buf := by
  simp [slotSpec, h, hz]

lemma stopLoop_run (read : Nat → ReadResult) :
    ∀ (vs : List Bool) (idx : Nat) (minf : ℚ) (slots : List ℚ) (m : ℚ)
      (tr : List (Nat × Nat)),
      stopLoop read idx vs (validIndicesAux idx vs) minf = some (slots, m, tr) →
      slots.length = vs.length ∧
      (∀ k, k < vs.length →
        slots.getD k 0 = slotSpec read (idx + k) (vs.getD k false)) ∧
      m = (contribs read idx vs).foldl min minf ∧
      (∀ p ∈ tr, p.1 = p.2) ∧
      (∀ k, k < vs.length → vs.getD k false = true →
        ∀ buf, read (idx + k) = ReadResult.ok buf →
          buf.time_running ≤ buf.time_enabled ∧
          (buf.time_running ≠ 0 → 0 < fracQ buf ∧ fracQ buf ≤ 1)) := by
  intro vs
  induction vs with
  | nil =>
    intro idx minf slots m tr h
    simp only [stopLoop, validIndicesAux, Option.some.injEq, Prod.mk.injEq] at h
    obtain ⟨h1, h2, h3⟩ := h
    subst h1
    subst h2
    subst h3
    refine ⟨rfl, ?_, by simp [contribs], ?_, ?_⟩
    · intro k hk
      exact absurd hk (by simp)
    · intro p hp
      exact absurd hp (by simp)
    · intro k hk
      exact absurd hk (by simp)
  | cons v vs ih =>
    intro idx minf slots m tr h
    by_cases hv : v = true
    · subst hv
      rw [show validIndicesAux idx (true :: vs) = idx :: validIndicesAux (idx + 1) vs
          from by simp [validIndicesAux]] at h
      simp only [stopLoop, if_true] at h
      cases hread : read idx with
      | fail =>
        rw [hread] at h
        dsimp only at h
        cases hrec : stopLoop read (idx + 1) vs (validIndicesAux (idx + 1) vs) minf with
        | none => rw [hrec] at h; exact absurd h (by simp)
        | some val =>
          obtain ⟨s', m', t'⟩ := val
          rw [hrec] at h
          dsimp only at h
          simp only [Option.some.injEq, Prod.mk.injEq] at h
          obtain ⟨h1, h2, h3⟩ := h
          subst h1
          subst h2
          subst h3
          obtain ⟨ih1, ih2, ih3, ih4, ih5⟩ := ih (idx + 1) minf s' m' t' hrec
          refine ⟨by simp [ih1], ?_, ?_, ?_, ?_⟩
          · intro k hk
            cases k with
            | zero =>
              rw [Nat.add_zero]
              simp only [List.getD_cons_zero]
              exact (slotSpec_fail read idx hread).symm
            | succ k =>
              have := ih2 k (by simpa using hk)
              rw [List.getD_cons_succ, List.getD_cons_succ,
                show idx + (k + 1) = idx + 1 + k from by omega]
              exact this
          · rw [show contribs read idx (true :: vs) = contribs read (idx + 1) vs
                from by simp [contribs, hread]]
            exact ih3
          · intro p hp
            rcases List.mem_cons.mp hp with h | h
            · subst h; rfl
            · exact ih4 p h
          · intro k hk hval buf hbuf
            cases k with
            | zero =>
              rw [Nat.add_zero, hread] at hbuf
              exact absurd hbuf (by simp)
            | succ k =>
              have := ih5 k (by simpa using hk) (by simpa using hval) buf
                (by rw [show idx + 1 + k = idx + (k + 1) from by omega]; exact hbuf)
              exact this
      | ok buf =>
        rw [hread] at h
        dsimp only at h
        by_cases hle : buf.time_running ≤ buf.time_enabled
        · rw [if_neg (not_not_intro hle)] at h
          by_cases hnz : buf.time_running = 0
          · rw [if_neg (not_not_intro hnz)] at h
            cases hrec : stopLoop read (idx + 1) vs (validIndicesAux (idx + 1) vs) minf with
            | none => rw [hrec] at h; exact absurd h (by simp)
            | some val =>
              obtain ⟨s', m', t'⟩ := val
              rw [hrec] at h
              dsimp only at h
              simp only [Option.some.injEq, Prod.mk.injEq] at h
              obtain ⟨h1, h2, h3⟩ := h
              subst h1
              subst h2
              subst h3
              obtain ⟨ih1, ih2, ih3, ih4, ih5⟩ := ih (idx + 1) minf s' m' t' hrec
              refine ⟨by simp [ih1], ?_, ?_, ?_, ?_⟩
              · intro k hk
                cases k with
                | zero =>
                  rw [Nat.add_zero]
                  simp only [List.getD_cons_zero]
                  exact (slotSpec_ok_zero read idx buf hread hnz).symm
                | succ k =>
                  have := ih2 k (by simpa using hk)
                  rw [List.getD_cons_succ, List.getD_cons_succ,
                    show idx + (k + 1) = idx + 1 + k from by omega]
                  exact this
              · rw [show contribs read idx (true :: vs) = contribs read (idx + 1) vs
                    from by simp [contribs, hread, hnz]]
                exact ih3
              · intro p hp
                rcases List.mem_cons.mp hp with h | h
                · subst h; rfl
                · exact ih4 p h
              · intro k hk hval buf' hbuf
                cases k with
                | zero =>
                  rw [Nat.add_zero, hread] at hbuf
                  have hbb : buf = buf' := by
                    cases hbuf
                    rfl
                  subst hbb
                  exact ⟨hle, fun hr => absurd hnz hr⟩
                | succ k =>
                  exact ih5 k (by simpa using hk) (by simpa using hval) buf'
                    (by rw [show idx + 1 + k = idx + (k + 1) from by omega]; exact hbuf)
          · rw [if_pos hnz] at h
            by_cases hfr : 0 < fracQ buf ∧ fracQ buf ≤ 1
            · rw [if_neg (not_not_intro hfr)] at h
              cases hrec : stopLoop read (idx + 1) vs (validIndicesAux (idx + 1) vs)
                  (min minf (fracQ buf)) with
              | none => rw [hrec] at h; exact absurd h (by simp)
              | some val =>
                obtain ⟨s', m', t'⟩ := val
                rw [hrec] at h
                dsimp only at h
                simp only [Option.some.injEq, Prod.mk.injEq] at h
                obtain ⟨h1, h2, h3⟩ := h
                subst h1
                subst h2
                subst h3
                obtain ⟨ih1, ih2, ih3, ih4, ih5⟩ :=
                  ih (idx + 1) (min minf (fracQ buf)) s' m' t' hrec
                refine ⟨by simp [ih1], ?_, ?_, ?_, ?_⟩
                · intro k hk
                  cases k with
                  | zero =>
                    rw [Nat.add_zero]
                    simp only [List.getD_cons_zero]
                    exact (slotSpec_ok read idx buf hread hnz).symm
                  | succ k =>
                    have := ih2 k (by simpa using hk)
                    rw [List.getD_cons_succ, List.getD_cons_succ,
                      show idx + (k + 1) = idx + 1 + k from by omega]
                    exact this
                · rw [show contribs read idx (true :: vs)
                      = fracQ buf :: contribs read (idx + 1) vs
                      from by simp [contribs, hread, hnz]]
                  rw [List.foldl_cons]
                  exact ih3
                · intro p hp
                  rcases List.mem_cons.mp hp with h | h
                  · subst h; rfl
                  · exact ih4 p h
                · intro k hk hval buf' hbuf
                  cases k with
                  | zero =>
                    rw [Nat.add_zero, hread] at hbuf
                    have hbb : buf = buf' := by
                      cases hbuf
                      rfl
                    subst hbb
                    exact ⟨hle, fun _ => hfr⟩
                  | succ k =>
                    exact ih5 k (by simpa using hk) (by simpa using hval) buf'
                      (by rw [show idx + 1 + k = idx + (k + 1) from by omega]; exact hbuf)
            · rw [if_pos hfr] at h
              exact absurd h (by simp)
        · rw [if_pos hle] at h
          exact absurd h (by simp)
    · have hv' : v = false := by simpa using hv
      subst hv'
      rw [show validIndicesAux idx (false :: vs) = validIndicesAux (idx + 1) vs
          from by simp [validIndicesAux]] at h
      simp only [stopLoop, Bool.false_eq_true, if_false] at h
      cases hrec : stopLoop read (idx + 1) vs (validIndicesAux (idx + 1) vs) minf with
      | none => rw [hrec] at h; exact absurd h (by simp)
      | some val =>
        obtain ⟨s', m', t'⟩ := val
        rw [hrec] at h
        dsimp only at h
        simp only [Option.some.injEq, Prod.mk.injEq] at h
        obtain ⟨h1, h2, h3⟩ := h
        subst h1
        subst h2
        subst h3
        obtain ⟨ih1, ih2, ih3, ih4, ih5⟩ := ih (idx + 1) minf s' m' t' hrec
        refine ⟨by simp [ih1], ?_, ?_, ih4, ?_⟩
        · intro k hk
          cases k with
          | zero =>
            rw [Nat.add_zero]
            simp only [List.getD_cons_zero]
            exact (slotSpec_false read idx).symm
          | succ k =>
            have := ih2 k (by simpa using hk)
            rw [List.getD_cons_succ, List.getD_cons_succ,
              show idx + (k + 1) = idx + 1 + k from by omega]
            exact this
        · rw [show contribs read idx (false :: vs) = contribs read (idx + 1) vs
              from by simp [contribs]]
          exact ih3
        · intro k hk hval buf' hbuf
          cases k with
          | zero => exact absurd hval (by simp)
          | succ k =>
            exact ih5 k (by simpa using hk) (by simpa using hval) buf'
              (by rw [show idx + 1 + k = idx + (k + 1) from by omega]; exact hbuf)

end PerfCounters
namespace PerfCounters

lemma stopLoop_isSome (read : Nat → ReadResult)
    (hread : ∀ i buf, read i = ReadResult.ok buf →
      buf.time_running ≤ buf.time_enabled) :
    ∀ (vs : List Bool) (idx : Nat) (minf : ℚ),
      (stopLoop read idx vs (validIndicesAux idx vs) minf).isSome = true := by
  intro vs
  induction vs with
  | nil => intro idx minf; rfl
  | cons v vs ih =>
    intro idx minf
    by_cases hv : v = true
    · subst hv
      rw [show validIndicesAux idx (true :: vs) = idx :: validIndicesAux (idx + 1) vs
          from by simp [validIndicesAux]]
      simp only [stopLoop, if_true]
      cases hread2 : read idx with
      | fail =>
        dsimp only
        obtain ⟨⟨s', m', t'⟩, hval⟩ :=
          Option.isSome_iff_exists.mp (ih (idx + 1) minf)
        simp [hval]
      | ok buf =>
        dsimp only
        have hle := hread idx buf hread2
        rw [if_neg (not_not_intro hle)]
        by_cases hnz : buf.time_running = 0
        · rw [if_neg (not_not_intro hnz)]
          obtain ⟨⟨s', m', t'⟩, hval⟩ :=
            Option.isSome_iff_exists.mp (ih (idx + 1) minf)
          simp [hval]
        · rw [if_pos hnz]
          rw [if_neg (not_not_intro (fracQ_pos_le_one buf hle hnz))]
          obtain ⟨⟨s', m', t'⟩, hval⟩ :=
            Option.isSome_iff_exists.mp (ih (idx + 1) (min minf (fracQ buf)))
          simp [hval]
    · have hv' : v = false := by simpa using hv
      subst hv'
      rw [show validIndicesAux idx (false :: vs) = validIndicesAux (idx + 1) vs
          from by simp [validIndicesAux]]
      simp only [stopLoop, Bool.false_eq_true, if_false]
      obtain ⟨⟨s', m', t'⟩, hval⟩ :=
        Option.isSome_iff_exists.mp (ih (idx + 1) minf)
      simp [hval]

lemma getD_map_range (openOk : Nat → Bool) (i : Nat) (h : i < Num) :
    ((List.range Num).map openOk).getD i false = openOk i := by
  rw [List.getD_eq_getElem?_getD, List.getElem?_map, List.getElem?_range h]
  rfl

lemma head?_filter_eq_find? (p : Nat → Bool) :
    ∀ l : List Nat, (l.filter p).head? = l.find? p := by
  intro l
  induction l with
  | nil => rfl
  | cons a l ih =>
    by_cases h : p a
    · rw [List.filter_cons_of_pos h, List.find?_cons_of_pos _ h]
      rfl
    · rw [List.filter_cons_of_neg h, List.find?_cons_of_neg _ h]
      exact ih

end PerfCounters
namespace PerfCounters

/-- Claim C8: the catalog lookup is a total deterministic mapping over the
11 canonical counter names — as a pure function it returns the same fixed
identifier on every call — and for any input outside the canonical set it
aborts the process (modelled as `none`) rather than returning an error
value. -/
theorem c8_catalog_total (name : String) :
    (name ∈ counterNames → (FindCounterConfig name).isSome = true) ∧
    (¬name ∈ counterNames → FindCounterConfig name = none) := by
  constructor
  · intro h
    simp only [counterNames, List.mem_cons, List.mem_singleton,
      List.not_mem_nil, or_false] at h
    rcases h with h | h | h | h | h | h | h | h | h | h | h <;> subst h <;> rfl
  · intro h
    simp only [counterNames, List.mem_cons, List.mem_singleton,
      List.not_mem_nil, or_false, not_or] at h
    obtain ⟨h1, h2, h3, h4, h5, h6, h7, h8, h9, h10, h11⟩ := h
    simp [FindCounterConfig, h1, h2, h3, h4, h5, h6, h7, h8, h9, h10, h11]

/-- Witness for C8: a canonical name resolves, a non-canonical name
aborts. -/
theorem c8_catalog_total_witness :
    (FindCounterConfig "ref_cycle").isSome = true ∧
    FindCounterConfig "not_a_real_counter" = none :=
  ⟨(c8_catalog_total "ref_cycle").1 (by decide),
   (c8_catalog_total "not_a_real_counter").2 (by decide)⟩

/-- Claim C5: after construction — capability absent, all opens
succeeding, or any subset of per-counter open failures — construction
never aborts and the number of acquired handles equals the population
count of the validity mask. -/
theorem c5_handle_count_eq_popcount (supported : Bool) (openOk : Nat → Bool) :
    (implInit supported openOk).isSome = true ∧
    ∀ s, implInit supported openOk = some s →
      s.fds.length = s.valid.count true := by
  cases supported with
  | false =>
    refine ⟨by rw [implInit_false]; rfl, ?_⟩
    intro s hs
    rw [implInit_false] at hs
    cases hs
    decide
  | true =>
    refine ⟨by rw [implInit_true]; rfl, ?_⟩
    intro s hs
    rw [implInit_true] at hs
    cases hs
    exact (count_true_map openOk (List.range Num)).symm

/-- Witness for C5 at a concrete environment with alternating open
failures. -/
theorem c5_handle_count_eq_popcount_witness :
    ([0, 2, 4, 6, 8, 10] : List Nat).length =
      ([true, false, true, false, true, false, true, false, true, false,
        true] : List Bool).count true :=
  (c5_handle_count_eq_popcount true (fun i => decide (i % 2 = 0))).2
    ⟨[true, false, true, false, true, false, true, false, true, false, true],
     [0, 2, 4, 6, 8, 10]⟩ (by decide)

/-- Claim C7: during construction an open failure for a counter leaves
exactly the validity bit of that counter clear, the iteration still attempts
every remaining canonical counter (bit `i` equals the open outcome for
counter `i`, for all 11 counters), and no open failure aborts the
process. -/
theorem c7_open_failure_isolated (openOk : Nat → Bool) :
    (implInit true openOk).isSome = true ∧
    ∀ s, implInit true openOk = some s →
      ∀ i, i < Num → s.valid.getD i false = openOk i := by
  refine ⟨by rw [implInit_true]; rfl, ?_⟩
  intro s hs i hi
  rw [implInit_true] at hs
  cases hs
  exact getD_map_range openOk i hi

/-- Witness for C7: with the open for counter 0 failing and all others
succeeding, bit 0 is clear and bit 1 is set. -/
theorem c7_open_failure_isolated_witness :
    (implInit true (fun i => decide (0 < i))).isSome = true ∧
    ([false, true, true, true, true, true, true, true, true, true,
      true] : List Bool).getD 0 false = (fun i : Nat => decide (0 < i)) 0 ∧
    ([false, true, true, true, true, true, true, true, true, true,
      true] : List Bool).getD 1 false = (fun i : Nat => decide (0 < i)) 1 :=
  ⟨(c7_open_failure_isolated (fun i => decide (0 < i))).1,
   (c7_open_failure_isolated (fun i => decide (0 < i))).2
     ⟨[false, true, true, true, true, true, true, true, true, true, true],
      [1, 2, 3, 4, 5, 6, 7, 8, 9, 10]⟩ (by decide) 0 (by decide),
   (c7_open_failure_isolated (fun i => decide (0 < i))).2
     ⟨[false, true, true, true, true, true, true, true, true, true, true],
      [1, 2, 3, 4, 5, 6, 7, 8, 9, 10]⟩ (by decide) 1 (by decide)⟩

/-- Claim C6: `Start` returns false with no side effect (no enable ioctl)
on an inert instance; otherwise it enables exactly the group leader
`fds_[0]` and returns true, and an enable failure is a fatal assertion
(`none`), never a `false` return. -/
theorem c6_start_behavior (s : ImplState) (enableOk : Bool) :
    (s.fds = [] → start s enableOk = some (false, [])) ∧
    (¬s.fds = [] →
      (enableOk = true → start s enableOk = some (true, [s.fds.headI])) ∧
      (enableOk = false → start s enableOk = none)) := by
  constructor
  · intro h
    simp [start, h]
  · intro h
    have hne : s.fds.isEmpty = false := by
      cases hf : s.fds with
      | nil => exact absurd hf h
      | cons a l => rfl
    constructor
    · intro he
      simp [start, hne, he]
    · intro he
      simp [start, hne, he]

/-- Witness for C6 at concrete inert and non-inert states. -/
theorem c6_start_behavior_witness :
    start ⟨List.replicate Num false, []⟩ true = some (false, []) ∧
    start ⟨[true] ++ List.replicate 10 false, [0]⟩ true = some (true, [0]) ∧
    start ⟨[true] ++ List.replicate 10 false, [0]⟩ false = none :=
  ⟨(c6_start_behavior ⟨List.replicate Num false, []⟩ true).1 rfl,
   ((c6_start_behavior ⟨[true] ++ List.replicate 10 false, [0]⟩ true).2
     (by decide)).1 rfl,
   ((c6_start_behavior ⟨[true] ++ List.replicate 10 false, [0]⟩ false).2
     (by decide)).2 rfl⟩

/-- Counterexample to claim C1 as stated: on a capability-absent
environment `Stop` returns 0.0 but leaves the set of the caller untouched
(the early `return 0.0` precedes the zeroing loop), so a nonzero prior
slot survives the call — the final contents are not all zero and do
depend on the prior contents. -/
theorem c1_counterexample :
    implInit false (fun _ => true) = some ⟨List.replicate Num false, []⟩ ∧
    stop ⟨List.replicate Num false, []⟩ (fun _ => ReadResult.fail)
        ((7 : ℚ) :: List.replicate 10 0)
      = some ((7 : ℚ) :: List.replicate 10 0, 0) ∧
    ¬((7 : ℚ) :: List.replicate 10 0).getD 0 0 = 0 :=
  ⟨rfl, rfl, by norm_num⟩

/-- Claim C1 amended: on every non-inert instance `Stop` zeroes then
populates every slot, so its output is independent of the prior
contents; on an inert instance (in particular on a capability-absent
environment) `Stop` returns exactly 0.0 and leaves the set untouched
rather than zeroing it. -/
theorem c1_stop_output (s : ImplState) (read : Nat → ReadResult)
    (prior prior' : List ℚ) :
    (¬s.fds = [] → stop s read prior = stop s read prior') ∧
    (s.fds = [] → stop s read prior = some (prior, 0)) := by
  constructor
  · intro h
    have hne : s.fds.isEmpty = false := by
      cases hf : s.fds with
      | nil => exact absurd hf h
      | cons a l => rfl
    simp [stop, hne]
  · intro h
    simp [stop, h]

/-- Witness for C1 amended: a non-inert stop is unchanged under a change
of prior contents, and an inert stop returns the prior contents with
coverage 0. -/
theorem c1_stop_output_witness :
    stop ⟨[true] ++ List.replicate 10 false, [0]⟩
        (fun _ => ReadResult.ok ⟨5, 10, 10⟩) [3]
      = stop ⟨[true] ++ List.replicate 10 false, [0]⟩
        (fun _ => ReadResult.ok ⟨5, 10, 10⟩) [4] ∧
    stop ⟨List.replicate Num false, []⟩ (fun _ => ReadResult.fail) [9]
      = some ([9], 0) :=
  ⟨(c1_stop_output ⟨[true] ++ List.replicate 10 false, [0]⟩
      (fun _ => ReadResult.ok ⟨5, 10, 10⟩) [3] [4]).1 (by decide),
   (c1_stop_output ⟨List.replicate Num false, []⟩
      (fun _ => ReadResult.fail) [9] [9]).2 rfl⟩

end PerfCounters
namespace PerfCounters

lemma range_num_cons : List.range Num = 0 :: List.range' 1 10 := by
  rw [List.range_eq_range']
  rfl

lemma filter_eq_validIndicesAux (openOk : Nat → Bool) :
    (List.range Num).filter openOk
      = validIndicesAux 0 ((List.range Num).map openOk) := by
  rw [List.range_eq_range']
  exact (validIndicesAux_map openOk Num 0).symm

/-- Counterexample to claim C4 as stated: when the open for the first
canonical counter (`ref_cycle`) fails but later opens succeed, the group
leader (`fds_[0]`) is the counter at canonical position 1, not the first
canonical counter. -/
theorem c4_counterexample :
    implInit true (fun i => decide (0 < i)) =
      some ⟨[false, true, true, true, true, true, true, true, true, true,
             true], [1, 2, 3, 4, 5, 6, 7, 8, 9, 10]⟩ ∧
    ¬([1, 2, 3, 4, 5, 6, 7, 8, 9, 10] : List Nat) = [] ∧
    ¬([1, 2, 3, 4, 5, 6, 7, 8, 9, 10] : List Nat).headI = 0 :=
  ⟨by decide, by decide, by decide⟩

/-- Claim C4 amended: the group leader is the first canonical counter
whose open succeeded — which is the first canonical counter (`ref_cycle`)
exactly when its own open succeeds — and the fatal assertion checks that
the first canonical counter resolves to the hardware event class, a check
that holds unconditionally (at canonical position 0, whether or not its
open succeeded). -/
theorem c4_leader_first_opened (openOk : Nat → Bool) (s : ImplState)
    (hs : implInit true openOk = some s) :
    (¬s.fds = [] →
      (List.range Num).find? openOk = some s.fds.headI ∧
      (openOk 0 = true → s.fds.headI = 0)) ∧
    ∃ c, FindCounterConfig counterNames.headI = some c ∧
      c.type = PERF_TYPE_HARDWARE := by
  rw [implInit_true] at hs
  cases hs
  constructor
  · intro hne
    constructor
    · calc (List.range Num).find? openOk
          = ((List.range Num).filter openOk).head? :=
            (head?_filter_eq_find? openOk (List.range Num)).symm
        _ = some ((List.range Num).filter openOk).headI := by
            cases hf : (List.range Num).filter openOk with
            | nil => exact absurd hf hne
            | cons a t => rfl
    · intro h0
      have hcons : (List.range Num).filter openOk
          = 0 :: (List.range' 1 10).filter openOk := by
        rw [range_num_cons, List.filter_cons_of_pos h0]
      rw [hcons]
      rfl
  · exact ⟨⟨PERF_COUNT_HW_REF_CPU_CYCLES, PERF_TYPE_HARDWARE⟩, rfl, rfl⟩

/-- Witness for C4 amended: with counter 0 failing to open, the leader is
canonical counter 1. -/
theorem c4_leader_first_opened_witness :
    (List.range Num).find? (fun i => decide (0 < i)) = some 1 :=
  ((c4_leader_first_opened (fun i => decide (0 < i))
      ⟨[false, true, true, true, true, true, true, true, true, true, true],
       [1, 2, 3, 4, 5, 6, 7, 8, 9, 10]⟩ (by decide)).1 (by decide)).1

/-- Claim C9: assuming every successful read returns a sample with
running time ≤ enabled time (the kernel invariant the code asserts),
every sample with nonzero running time yields a coverage fraction in
(0, 1] with a nonzero divisor, and `Stop` on any constructed instance
never hits a fatal assertion (it always returns a value). -/
theorem c9_read_assertions (read : Nat → ReadResult)
    (hread : ∀ i buf, read i = ReadResult.ok buf →
      buf.time_running ≤ buf.time_enabled) :
    (∀ i buf, read i = ReadResult.ok buf → ¬buf.time_running = 0 →
      0 < fracQ buf ∧ fracQ buf ≤ 1 ∧ ¬buf.time_enabled = 0) ∧
    (∀ (openOk : Nat → Bool) (s : ImplState) (prior : List ℚ),
      implInit true openOk = some s → (stop s read prior).isSome = true) := by
  constructor
  · intro i buf hok hnz
    have hle := hread i buf hok
    have hb := fracQ_pos_le_one buf hle hnz
    refine ⟨hb.1, hb.2, ?_⟩
    intro h0
    rw [h0] at hle
    exact hnz (Nat.le_zero.mp hle)
  · intro openOk s prior hs
    rw [implInit_true] at hs
    cases hs
    by_cases hemp : ((List.range Num).filter openOk).isEmpty = true
    · simp [stop, hemp]
    · have hemp' : ((List.range Num).filter openOk).isEmpty = false :=
        Bool.eq_false_iff.mpr hemp
      have hloop := stopLoop_isSome read hread ((List.range Num).map openOk) 0 1
      rw [← filter_eq_validIndicesAux openOk] at hloop
      obtain ⟨⟨s', m', t'⟩, hval⟩ := Option.isSome_iff_exists.mp hloop
      simp [stop, hemp', hval]

/-- Witness for C9 with a concrete read function of full coverage. -/
theorem c9_read_assertions_witness :
    0 < fracQ ⟨5, 10, 10⟩ ∧ fracQ ⟨5, 10, 10⟩ ≤ 1 ∧
    ¬(⟨5, 10, 10⟩ : Buf).time_enabled = 0 :=
  (c9_read_assertions (fun _ => ReadResult.ok ⟨5, 10, 10⟩)
    (fun _ buf h => by cases h; decide)).1 0 ⟨5, 10, 10⟩ rfl (by decide)

/-- Claim C10: in every constructed instance the k-th acquired handle
belongs to the k-th canonical counter whose validity bit is set (the
handle list equals the list of set-bit indices in canonical order), and
the `Stop` loop pairs each valid counter with exactly the handle that was
opened for it (every (counter, descriptor) pair in the read trace is
diagonal). -/
theorem c10_fd_alignment (openOk : Nat → Bool) (read : Nat → ReadResult)
    (s : ImplState) (hs : implInit true openOk = some s) :
    s.fds = validIndices s.valid ∧
    (∀ slots m tr, stopLoop read 0 s.valid s.fds 1 = some (slots, m, tr) →
      ∀ p ∈ tr, p.1 = p.2) := by
  rw [implInit_true] at hs
  cases hs
  constructor
  · rw [validIndices]
    exact filter_eq_validIndicesAux openOk
  · intro slots m tr h
    rw [filter_eq_validIndicesAux openOk] at h
    exact (stopLoop_run read ((List.range Num).map openOk) 0 1
      slots m tr h).2.2.2.1 

/-- Witness for C10 at a fully-open environment. -/
theorem c10_fd_alignment_witness :
    ([0, 1, 2, 3, 4, 5, 6, 7, 8, 9, 10] : List Nat) =
      validIndices [true, true, true, true, true, true, true, true, true,
        true, true] := by
  have h := (c10_fd_alignment (fun _ => true)
      (fun _ => ReadResult.ok ⟨5, 10, 10⟩)
      ⟨[true, true, true, true, true, true, true, true, true, true, true],
       [0, 1, 2, 3, 4, 5, 6, 7, 8, 9, 10]⟩ (by decide)).1
  exact h

end PerfCounters
namespace PerfCounters

lemma stop_some_elim (openOk : Nat → Bool) (read : Nat → ReadResult)
    (prior slots : List ℚ) (m : ℚ)
    (hne : ¬((List.range Num).filter openOk) = [])
    (h : stop ⟨(List.range Num).map openOk, (List.range Num).filter openOk⟩
        read prior = some (slots, m)) :
    ∃ tr, stopLoop read 0 ((List.range Num).map openOk)
        (validIndicesAux 0 ((List.range Num).map openOk)) 1
      = some (slots, m, tr) := by
  have hemp : ((List.range Num).filter openOk).isEmpty = false := by
    cases hf : (List.range Num).filter openOk with
    | nil => exact absurd hf hne
    | cons a l => rfl
  rw [← filter_eq_validIndicesAux openOk]
  simp only [stop, hemp, Bool.false_eq_true, if_false] at h
  cases hsl : stopLoop read 0 ((List.range Num).map openOk)
      ((List.range Num).filter openOk) 1 with
  | none =>
    rw [hsl] at h
    exact absurd h (by simp)
  | some val =>
    obtain ⟨slots', m', tr'⟩ := val
    rw [hsl] at h
    dsimp only at h
    simp only [Option.some.injEq, Prod.mk.injEq] at h
    obtain ⟨h1, h2⟩ := h
    subst h1
    subst h2
    exact ⟨tr', rfl⟩

/-- Claim C2: on a non-inert Stop, a counter whose validity bit is set,
whose read succeeds and whose running time is nonzero gets its slot set
to the raw value divided by the coverage fraction, which lies in (0, 1];
every other slot — validity bit clear, read failure, or zero running
time — is zero after Stop. -/
theorem c2_slot_population (openOk : Nat → Bool) (read : Nat → ReadResult)
    (s : ImplState) (prior slots : List ℚ) (m : ℚ)
    (hs : implInit true openOk = some s) (hne : ¬s.fds = [])
    (h : stop s read prior = some (slots, m)) :
    ∀ i, i < Num →
      (∀ buf, openOk i = true → read i = ReadResult.ok buf →
        ¬buf.time_running = 0 →
          slots.getD i 0 = (buf.value : ℚ) / fracQ buf ∧
          0 < fracQ buf ∧ fracQ buf ≤ 1) ∧
      ((openOk i = false ∨ read i = ReadResult.fail ∨
          (∃ buf, read i = ReadResult.ok buf ∧ buf.time_running = 0)) →
        slots.getD i 0 = 0) := by
  rw [implInit_true] at hs
  cases hs
  obtain ⟨tr, hsl⟩ := stop_some_elim openOk read prior slots m hne h
  obtain ⟨hlen, hslot, hmin, htr, hassert⟩ :=
    stopLoop_run read ((List.range Num).map openOk) 0 1 slots m tr hsl
  intro i hi
  have hleni : i < ((List.range Num).map openOk).length := by simpa using hi
  have hvi : ((List.range Num).map openOk).getD i false = openOk i :=
    getD_map_range openOk i hi
  have hsi := hslot i hleni
  rw [Nat.zero_add, hvi] at hsi
  constructor
  · intro buf hopen hok hnz
    rw [hopen] at hsi
    refine ⟨by rw [hsi]; exact slotSpec_ok read i buf hok hnz, ?_⟩
    have ha := hassert i hleni (by rw [hvi, hopen]) buf
      (by rw [Nat.zero_add]; exact hok)
    exact ha.2 hnz
  · intro hcase
    rcases hcase with hopen | hfail | ⟨buf, hok, hz⟩
    · rw [hopen] at hsi
      rw [hsi]
      rfl
    · cases hoi : openOk i with
      | false =>
        rw [hoi] at hsi
        rw [hsi]
        rfl
      | true =>
        rw [hoi] at hsi
        rw [hsi]
        exact slotSpec_fail read i hfail
    · cases hoi : openOk i with
      | false =>
        rw [hoi] at hsi
        rw [hsi]
        rfl
      | true =>
        rw [hoi] at hsi
        rw [hsi]
        exact slotSpec_ok_zero read i buf hok hz

/-- Witness for C2: a multiplexed counter (coverage 1/2) is extrapolated
to raw/coverage, and the slot of a non-valid counter is zero. -/
theorem c2_slot_population_witness :
    (([200, 0, 0, 0, 0, 0, 0, 0, 0, 0, 0] : List ℚ).getD 0 0
        = ((100 : Nat) : ℚ) / fracQ ⟨100, 10, 5⟩ ∧
      0 < fracQ ⟨100, 10, 5⟩ ∧ fracQ ⟨100, 10, 5⟩ ≤ 1) ∧
    ([200, 0, 0, 0, 0, 0, 0, 0, 0, 0, 0] : List ℚ).getD 1 0 = 0 := by
  have h := c2_slot_population (fun i => decide (i % 2 = 0))
    (fun i => if i = 0 then ReadResult.ok ⟨100, 10, 5⟩
              else if i = 2 then ReadResult.fail
              else ReadResult.ok ⟨50, 10, 0⟩)
    ⟨(List.range Num).map (fun i => decide (i % 2 = 0)),
     (List.range Num).filter (fun i => decide (i % 2 = 0))⟩
    (List.replicate 11 3) [200, 0, 0, 0, 0, 0, 0, 0, 0, 0, 0] ((1 : ℚ)/2)
    (implInit_true (fun i => decide (i % 2 = 0)))
    (by decide)
    (by norm_num [stop, stopLoop, fracQ, Num, List.range_succ])
  exact ⟨(h 0 (by decide)).1 ⟨100, 10, 5⟩ (by decide) rfl (by decide),
         (h 1 (by decide)).2 (Or.inl (by decide))⟩

/-- Claim C3: a non-inert Stop returns the fold of `min` starting at 1
over the coverage fractions of exactly the contributing counters (valid,
successful read, nonzero running time — zero-running and failed reads do
not appear in that list), and returns exactly 1 when no counter
contributed. -/
theorem c3_min_coverage (openOk : Nat → Bool) (read : Nat → ReadResult)
    (s : ImplState) (prior slots : List ℚ) (m : ℚ)
    (hs : implInit true openOk = some s) (hne : ¬s.fds = [])
    (h : stop s read prior = some (slots, m)) :
    m = (contribs read 0 s.valid).foldl min 1 ∧
    (contribs read 0 s.valid = [] → m = 1) := by
  rw [implInit_true] at hs
  cases hs
  obtain ⟨tr, hsl⟩ := stop_some_elim openOk read prior slots m hne h
  obtain ⟨hlen, hslot, hmin, htr, hassert⟩ :=
    stopLoop_run read ((List.range Num).map openOk) 0 1 slots m tr hsl
  refine ⟨hmin, ?_⟩
  intro hc
  rw [hmin, hc]
  rfl

/-- Witness for C3: a single sampled counter with full coverage makes
Stop return exactly 1. -/
theorem c3_min_coverage_witness :
    (1 : ℚ) = (contribs
      (fun i => if i = 0 then ReadResult.ok ⟨42, 10, 10⟩ else ReadResult.fail)
      0 ((List.range Num).map (fun i => decide (i = 0)))).foldl min 1 :=
  (c3_min_coverage (fun i => decide (i = 0))
    (fun i => if i = 0 then ReadResult.ok ⟨42, 10, 10⟩ else ReadResult.fail)
    ⟨(List.range Num).map (fun i => decide (i = 0)),
     (List.range Num).filter (fun i => decide (i = 0))⟩
    [] [42, 0, 0, 0, 0, 0, 0, 0, 0, 0, 0] 1
    (implInit_true (fun i => decide (i = 0)))
    (by decide)
    (by norm_num [stop, stopLoop, fracQ, Num, List.range_succ])).1

end PerfCounters
